import Mathlib

/-!
# Verification of the reddit-dump-extractor streaming extraction engine

A shallow embedding, in Lean 4, of the decode / line-assembly / filter /
output-path logic of the repository's Python sources
(`reddit_filter_utils.py`, `reddit_zst_filter.py`,
`reddit_zst_filter_zstandard.py`), together with proofs of the
specification's claims about them.

Modelling conventions:
* Python `str` values are modelled as lists of Unicode scalar values
  (`List Nat`); Python `bytes` values as lists of byte values (`List Nat`,
  each element `< 256`).
* `bytes.decode()` (strict UTF-8, as used by `chunk.decode()`) is modelled
  by `decodeUtf8`; the UTF-8 encoding of a text by `encodeText`.
* The decompressed byte stream delivered by `zstandard`'s stream reader is
  modelled as a pre-split list of byte chunks: each `reader.read(chunk_size)`
  call pops the next chunk (the empty list once the stream is exhausted).
  Quantifying over all such chunk lists quantifies over every way the
  stream can be split into reads.
* Fallible code returns `Except`/`Option`; external side effects (the
  pandas sink) are modelled by explicit success flags.
-/

/-- A Unicode scalar value: what a single element of a Python `str` ranges
over (code points except the surrogate range). -/
def ValidScalar (v : Nat) : Prop :=
  v < 1114112 ∧ ¬(55296 ≤ v ∧ v < 57344)

instance (v : Nat) : Decidable (ValidScalar v) := by
  unfold ValidScalar; infer_instance

/-- A Python `str` value: every element is a Unicode scalar value. -/
def ValidText (ts : List Nat) : Prop :=
  ∀ v ∈ ts, ValidScalar v

instance (ts : List Nat) : Decidable (ValidText ts) := by
  unfold ValidText; infer_instance

/-- UTF-8 encoding of one Unicode scalar value (the byte sequence that
Python's `str.encode()` produces for the corresponding character). -/
def encodeChar (v : Nat) : List Nat :=
  if v < 128 then [v]
  else if v < 2048 then [192 + v / 64, 128 + v % 64]
  else if v < 65536 then [224 + v / 4096, 128 + v / 64 % 64, 128 + v % 64]
  else [240 + v / 262144, 128 + v / 4096 % 64, 128 + v / 64 % 64, 128 + v % 64]

/-- UTF-8 encoding of a whole text. -/
def encodeText (ts : List Nat) : List Nat :=
  (ts.map encodeChar).flatten

/-- Decode one UTF-8 encoded character from a leading byte `b` and the
following bytes `bs`, returning the scalar value and the remaining bytes.
Models one step of Python's strict `bytes.decode()`: rejects stray
continuation bytes, truncated sequences, overlong encodings, surrogates
and values above `0x10FFFF`. -/
def takeChar (b : Nat) (bs : List Nat) : Option (Nat × List Nat) :=
  if b < 128 then some (b, bs)
  else if b < 194 then none
  else if b < 224 then
    match bs with
    | b1 :: bs1 =>
      if 128 ≤ b1 ∧ b1 < 192 then some ((b - 192) * 64 + (b1 - 128), bs1) else none
    | [] => none
  else if b < 240 then
    match bs with
    | b1 :: b2 :: bs2 =>
      if (128 ≤ b1 ∧ b1 < 192) ∧ (128 ≤ b2 ∧ b2 < 192) then
        if 2048 ≤ (b - 224) * 4096 + (b1 - 128) * 64 + (b2 - 128) ∧
            ¬(55296 ≤ (b - 224) * 4096 + (b1 - 128) * 64 + (b2 - 128) ∧
              (b - 224) * 4096 + (b1 - 128) * 64 + (b2 - 128) < 57344) then
          some ((b - 224) * 4096 + (b1 - 128) * 64 + (b2 - 128), bs2)
        else none
      else none
    | _ => none
  else if b < 245 then
    match bs with
    | b1 :: b2 :: b3 :: bs3 =>
      if (128 ≤ b1 ∧ b1 < 192) ∧ (128 ≤ b2 ∧ b2 < 192) ∧ (128 ≤ b3 ∧ b3 < 192) then
        if 65536 ≤ (b - 240) * 262144 + (b1 - 128) * 4096 + (b2 - 128) * 64 + (b3 - 128) ∧
            (b - 240) * 262144 + (b1 - 128) * 4096 + (b2 - 128) * 64 + (b3 - 128) < 1114112 then
          some ((b - 240) * 262144 + (b1 - 128) * 4096 + (b2 - 128) * 64 + (b3 - 128), bs3)
        else none
      else none
    | _ => none
  else none

theorem takeChar_length {b v : Nat} {bs rest : List Nat}
    (h : takeChar b bs = some (v, rest)) : rest.length ≤ bs.length := by
  unfold takeChar at h
  split at h
  · simp only [Option.some.injEq, Prod.mk.injEq] at h
    exact h.2 ▸ le_refl _
  split at h
  · exact absurd h (by simp)
  split at h
  · split at h
    · split at h
      · simp only [Option.some.injEq, Prod.mk.injEq] at h
        rw [← h.2]; simp
      · exact absurd h (by simp)
    · exact absurd h (by simp)
  split at h
  · split at h
    · split at h
      · split at h
        · simp only [Option.some.injEq, Prod.mk.injEq] at h
          rw [← h.2]; simp; omega
        · exact absurd h (by simp)
      · exact absurd h (by simp)
    · exact absurd h (by simp)
  split at h
  · split at h
    · split at h
      · split at h
        · simp only [Option.some.injEq, Prod.mk.injEq] at h
          rw [← h.2]; simp; omega
        · exact absurd h (by simp)
      · exact absurd h (by simp)
    · exact absurd h (by simp)
  · exact absurd h (by simp)

/-- Strict UTF-8 decoding, fuel-indexed: decode one character with
`takeChar` and recurse on the remainder.  The fuel argument only serves
structural recursion; `decodeUtf8` below supplies enough for any input. -/
def decodeUtf8Fuel : Nat → List Nat → Option (List Nat)
  | _, [] => some []
  | 0, _ :: _ => none
  | fuel + 1, b :: bs' =>
    match takeChar b bs' with
    | some (v, rest) => (decodeUtf8Fuel fuel rest).map (fun ts => v :: ts)
    | none => none

/-- Strict UTF-8 decoding of a byte sequence, modelling Python's
`bytes.decode()` as used by `chunk.decode()` in `FileReader.read_and_decode`:
succeeds only when the whole sequence is valid UTF-8. -/
def decodeUtf8 (bs : List Nat) : Option (List Nat) :=
  decodeUtf8Fuel bs.length bs

/-- The fuel is irrelevant once it covers the input length. -/
theorem decodeUtf8Fuel_mono :
    ∀ (n m : Nat) (bs : List Nat), bs.length ≤ n → bs.length ≤ m →
    decodeUtf8Fuel n bs = decodeUtf8Fuel m bs := by
  intro n
  induction n with
  | zero =>
    intro m bs hn hm
    cases bs with
    | nil => cases m <;> rfl
    | cons b bs' => simp at hn
  | succ n ih =>
    intro m bs hn hm
    cases bs with
    | nil => cases m <;> rfl
    | cons b bs' =>
      cases m with
      | zero => simp at hm
      | succ m =>
        simp only [decodeUtf8Fuel]
        cases htc : takeChar b bs' with
        | none => rfl
        | some vr =>
          obtain ⟨v, rest⟩ := vr
          have hr := takeChar_length htc
          simp only [List.length_cons] at hn hm
          dsimp only
          rw [ih m rest (by omega) (by omega)]

theorem decodeUtf8_nil : decodeUtf8 [] = some [] := rfl

/-- Unfolding by one character: a cons whose head starts a valid character
decodes to that character followed by the decode of the remainder. -/
theorem decodeUtf8_cons_some {b v : Nat} {bs' rest : List Nat}
    (htc : takeChar b bs' = some (v, rest)) :
    decodeUtf8 (b :: bs') = (decodeUtf8 rest).map (fun ts => v :: ts) := by
  have hr := takeChar_length htc
  rw [decodeUtf8, List.length_cons, decodeUtf8Fuel, htc]
  dsimp only
  rw [decodeUtf8, decodeUtf8Fuel_mono bs'.length rest.length rest hr (le_refl _)]

/-- Unfolding: a cons whose head does not start a valid character fails to
decode. -/
theorem decodeUtf8_cons_none {b : Nat} {bs' : List Nat}
    (htc : takeChar b bs' = none) : decodeUtf8 (b :: bs') = none := by
  rw [decodeUtf8, List.length_cons, decodeUtf8Fuel, htc]

theorem encodeChar_one {v : Nat} (h : v < 128) : encodeChar v = [v] := by
  unfold encodeChar; rw [if_pos h]

theorem encodeChar_two {v : Nat} (h1 : 128 ≤ v) (h2 : v < 2048) :
    encodeChar v = [192 + v / 64, 128 + v % 64] := by
  unfold encodeChar; rw [if_neg (by omega), if_pos h2]

theorem encodeChar_three {v : Nat} (h1 : 2048 ≤ v) (h2 : v < 65536) :
    encodeChar v = [224 + v / 4096, 128 + v / 64 % 64, 128 + v % 64] := by
  unfold encodeChar; rw [if_neg (by omega), if_neg (by omega), if_pos h2]

theorem encodeChar_four {v : Nat} (h1 : 65536 ≤ v) :
    encodeChar v = [240 + v / 262144, 128 + v / 4096 % 64, 128 + v / 64 % 64, 128 + v % 64] := by
  unfold encodeChar; rw [if_neg (by omega), if_neg (by omega), if_neg (by omega)]

theorem encodeChar_ne_nil (v : Nat) : encodeChar v ≠ [] := by
  unfold encodeChar
  split <;> try simp
  split <;> try simp
  split <;> simp

theorem encodeText_nil : encodeText [] = [] := rfl

theorem encodeText_cons (v : Nat) (ts : List Nat) :
    encodeText (v :: ts) = encodeChar v ++ encodeText ts := by
  simp [encodeText]

theorem encodeText_append (xs ys : List Nat) :
    encodeText (xs ++ ys) = encodeText xs ++ encodeText ys := by
  simp [encodeText]

theorem encodeText_eq_nil (ts : List Nat) : encodeText ts = [] ↔ ts = [] := by
  cases ts with
  | nil => simp [encodeText]
  | cons v ts =>
    simp only [encodeText_cons]
    constructor
    · intro h
      exact absurd (List.append_eq_nil.mp h).1 (encodeChar_ne_nil v)
    · intro h; cases h

/-- A successful `takeChar` step consumes exactly the UTF-8 encoding of the
returned scalar value, and that value is a valid Unicode scalar. -/
theorem takeChar_sound {b v : Nat} {bs rest : List Nat}
    (h : takeChar b bs = some (v, rest)) :
    encodeChar v ++ rest = b :: bs ∧ ValidScalar v := by
  unfold takeChar at h
  split at h
  · next hb =>
    simp only [Option.some.injEq, Prod.mk.injEq] at h
    obtain ⟨rfl, rfl⟩ := h
    exact ⟨by rw [encodeChar_one hb]; rfl, by constructor <;> omega⟩
  split at h
  · exact absurd h (by simp)
  split at h
  · next hb2 hb3 =>
    split at h
    · next b1 bs1 =>
      split at h
      · next hb1 =>
        simp only [Option.some.injEq, Prod.mk.injEq] at h
        obtain ⟨rfl, rfl⟩ := h
        constructor
        · rw [encodeChar_two (by omega) (by omega)]
          simp only [List.cons_append, List.nil_append, List.cons.injEq]
          refine ⟨by omega, by omega, trivial⟩
        · constructor <;> omega
      · exact absurd h (by simp)
    · exact absurd h (by simp)
  split at h
  · next hb2 hb3 hb4 =>
    split at h
    · next b1 b2 bs2 =>
      split at h
      · next hb1 =>
        split at h
        · next hrange =>
          simp only [Option.some.injEq, Prod.mk.injEq] at h
          obtain ⟨rfl, rfl⟩ := h
          constructor
          · rw [encodeChar_three (by omega) (by omega)]
            simp only [List.cons_append, List.nil_append, List.cons.injEq]
            refine ⟨by omega, by omega, by omega, trivial⟩
          · constructor <;> omega
        · exact absurd h (by simp)
      · exact absurd h (by simp)
    · exact absurd h (by simp)
  split at h
  · next hb2 hb3 hb4 hb5 =>
    split at h
    · next b1 b2 b3 bs3 =>
      split at h
      · next hb1 =>
        split at h
        · next hrange =>
          simp only [Option.some.injEq, Prod.mk.injEq] at h
          obtain ⟨rfl, rfl⟩ := h
          constructor
          · rw [encodeChar_four (by omega)]
            simp only [List.cons_append, List.nil_append, List.cons.injEq]
            refine ⟨by omega, by omega, by omega, by omega, trivial⟩
          · constructor <;> omega
        · exact absurd h (by simp)
      · exact absurd h (by simp)
    · exact absurd h (by simp)
  · exact absurd h (by simp)

/-- A `takeChar` step at the start of an encoded character recovers exactly
that character, whatever bytes follow. -/
theorem takeChar_encodeChar {v : Nat} (hv : ValidScalar v) (r : List Nat) :
    ∃ b bs, encodeChar v ++ r = b :: bs ∧ takeChar b bs = some (v, r) := by
  obtain ⟨hv1, hv2⟩ := hv
  by_cases c1 : v < 128
  · refine ⟨v, r, by rw [encodeChar_one c1]; rfl, ?_⟩
    unfold takeChar
    rw [if_pos c1]
  by_cases c2 : v < 2048
  · refine ⟨192 + v / 64, (128 + v % 64) :: r, by rw [encodeChar_two (by omega) c2]; rfl, ?_⟩
    simp only [takeChar]
    rw [if_neg (by omega), if_neg (by omega), if_pos (by omega)]
    simp only [if_pos (by omega : 128 ≤ 128 + v % 64 ∧ 128 + v % 64 < 192), Option.some.injEq,
      Prod.mk.injEq]
    exact ⟨by omega, trivial⟩
  by_cases c3 : v < 65536
  · refine ⟨224 + v / 4096, (128 + v / 64 % 64) :: (128 + v % 64) :: r,
      by rw [encodeChar_three (by omega) c3]; rfl, ?_⟩
    simp only [takeChar]
    rw [if_neg (by omega), if_neg (by omega), if_neg (by omega), if_pos (by omega)]
    rw [if_pos (by omega), if_pos (by omega)]
    simp only [Option.some.injEq, Prod.mk.injEq]
    exact ⟨by omega, trivial⟩
  · refine ⟨240 + v / 262144, (128 + v / 4096 % 64) :: (128 + v / 64 % 64) :: (128 + v % 64) :: r,
      by rw [encodeChar_four (by omega)]; rfl, ?_⟩
    simp only [takeChar]
    rw [if_neg (by omega), if_neg (by omega), if_neg (by omega), if_neg (by omega),
      if_pos (by omega)]
    rw [if_pos (by omega), if_pos (by omega)]
    simp only [Option.some.injEq, Prod.mk.injEq]
    exact ⟨by omega, trivial⟩

/-- Soundness of the decoder: a successful decode returns a text whose UTF-8
encoding is exactly the input bytes, and that text is a valid `str`. -/
theorem decodeUtf8_sound (bs : List Nat) :
    ∀ ts, decodeUtf8 bs = some ts → encodeText ts = bs ∧ ValidText ts := by
  suffices hgen : ∀ (n : Nat) (bs : List Nat), bs.length = n →
      ∀ ts, decodeUtf8 bs = some ts → encodeText ts = bs ∧ ValidText ts by
    exact hgen bs.length bs rfl
  intro n
  induction n using Nat.strong_induction_on with
  | _ n ih =>
    intro bs hlen ts h
    cases bs with
    | nil =>
      rw [decodeUtf8_nil] at h
      simp only [Option.some.injEq] at h
      subst h
      exact ⟨rfl, fun v hv => absurd hv (List.not_mem_nil v)⟩
    | cons b bs' =>
      cases htc : takeChar b bs' with
      | none =>
        rw [decodeUtf8_cons_none htc] at h
        cases h
      | some vr =>
        obtain ⟨v, rest⟩ := vr
        rw [decodeUtf8_cons_some htc, Option.map_eq_some'] at h
        obtain ⟨ts', hts', rfl⟩ := h
        have hlt : rest.length < n := by
          have := takeChar_length htc
          subst hlen
          simp only [List.length_cons]
          omega
        obtain ⟨he, hval⟩ := ih rest.length hlt rest rfl ts' hts'
        obtain ⟨hcons, hvv⟩ := takeChar_sound htc
        constructor
        · rw [encodeText_cons, he, ← hcons]
        · intro w hw
          rcases List.mem_cons.mp hw with rfl | hw'
          · exact hvv
          · exact hval w hw'

/-- The decoder peels off the encoding of any valid text from the front of a
byte sequence. -/
theorem decodeUtf8_encode_append (xs : List Nat) (hxs : ValidText xs) (r : List Nat) :
    decodeUtf8 (encodeText xs ++ r) = (decodeUtf8 r).map (fun ts => xs ++ ts) := by
  induction xs with
  | nil =>
    rw [encodeText_nil, List.nil_append]
    cases hr : decodeUtf8 r <;> simp
  | cons v xs ih =>
    have hv : ValidScalar v := hxs v (List.mem_cons_self v xs)
    have hxs' : ValidText xs := fun w hw => hxs w (List.mem_cons_of_mem v hw)
    obtain ⟨b, bs, hb, htc⟩ := takeChar_encodeChar hv (encodeText xs ++ r)
    rw [encodeText_cons, List.append_assoc, hb, decodeUtf8_cons_some htc, ih hxs']
    cases hr : decodeUtf8 r <;> simp

/-- Completeness of the decoder: the encoding of a valid text decodes back to
it (Python round-trip `bytes.decode()` of `str.encode()`). -/
theorem decodeUtf8_encode (xs : List Nat) (hxs : ValidText xs) :
    decodeUtf8 (encodeText xs) = some xs := by
  have := decodeUtf8_encode_append xs hxs []
  rw [List.append_nil] at this
  rw [this, decodeUtf8_nil]
  simp

/-- Cancellation: if the encoding of `t` is a front piece of the encoding of
`rest`, then `t` is a prefix of `rest` and the leftover bytes encode the
leftover text. -/
theorem encodeText_cancel {t rest : List Nat} {J : List Nat}
    (ht : ValidText t) (hrest : ValidText rest)
    (h : encodeText t ++ J = encodeText rest) :
    ∃ rest', rest = t ++ rest' ∧ J = encodeText rest' ∧ ValidText rest' := by
  have hd : decodeUtf8 (encodeText t ++ J) = some rest := by
    rw [h]; exact decodeUtf8_encode rest hrest
  rw [decodeUtf8_encode_append t ht J, Option.map_eq_some'] at hd
  obtain ⟨J', hJ', hrest'⟩ := hd
  obtain ⟨hJe, hJv⟩ := decodeUtf8_sound J J' hJ'
  exact ⟨J', hrest'.symm, hJe.symm, hJv⟩

/-!
## `FileReader.read_and_decode` (src/reddit_filter_utils.py lines 68-85,
identically src/reddit_zst_filter.py lines 71-88)

The decompressed stream is a list of byte chunks; each `reader.read(chunk_size)`
pops the next one (empty once the stream is exhausted).  `bytes_read` grows by
`chunk_size` per read, exactly as in the source.  The `UnicodeError` raised
when the window is exceeded is modelled as `Except.error` carrying the
`bytes_read` value interpolated into the source's error message.  The
positivity hypothesis `hcs` records the domain on which the Python recursion
terminates: with `chunk_size = 0` the source recurses forever. -/
def read_and_decode (chunkSize maxWindowSize : Nat) (hcs : 0 < chunkSize)
    (chunks : List (List Nat)) (previous_chunk : Option (List Nat)) (bytes_read : Nat) :
    Except Nat (List Nat × List (List Nat)) :=
  let chunk := chunks.headD []
  let bytes_read' := bytes_read + chunkSize
  let chunk' := match previous_chunk with
    | some prev => prev ++ chunk
    | none => chunk
  match decodeUtf8 chunk' with
  | some t => .ok (t, chunks.tail)
  | none =>
    if maxWindowSize < bytes_read' then .error bytes_read'
    else read_and_decode chunkSize maxWindowSize hcs chunks.tail (some chunk') bytes_read'
termination_by (chunks.length, maxWindowSize + 1 - bytes_read)
decreasing_by
  cases chunks with
  | nil =>
    apply Prod.Lex.right
    omega
  | cons c cr =>
    apply Prod.Lex.left
    simp

theorem prev_match_eq (previous_chunk : Option (List Nat)) (c : List Nat) :
    (match previous_chunk with
      | some prev => prev ++ c
      | none => c) = previous_chunk.getD [] ++ c := by
  cases previous_chunk <;> simp

/-- Unfolding: a successful decode attempt returns the text and the unread
chunks. -/
theorem read_and_decode_eq_ok {chunkSize maxWindowSize : Nat} (hcs : 0 < chunkSize)
    {chunks : List (List Nat)} {previous_chunk : Option (List Nat)} {bytes_read : Nat}
    {t : List Nat}
    (h : decodeUtf8 (previous_chunk.getD [] ++ chunks.headD []) = some t) :
    read_and_decode chunkSize maxWindowSize hcs chunks previous_chunk bytes_read =
      .ok (t, chunks.tail) := by
  conv_lhs => unfold read_and_decode
  simp only [prev_match_eq, h]

/-- Unfolding: a failed decode attempt past the window raises with the
accumulated `bytes_read`. -/
theorem read_and_decode_eq_error {chunkSize maxWindowSize : Nat} (hcs : 0 < chunkSize)
    {chunks : List (List Nat)} {previous_chunk : Option (List Nat)} {bytes_read : Nat}
    (h : decodeUtf8 (previous_chunk.getD [] ++ chunks.headD []) = none)
    (hw : maxWindowSize < bytes_read + chunkSize) :
    read_and_decode chunkSize maxWindowSize hcs chunks previous_chunk bytes_read =
      .error (bytes_read + chunkSize) := by
  conv_lhs => unfold read_and_decode
  simp only [prev_match_eq, h, if_pos hw]

/-- Unfolding: a failed decode attempt within the window retries with the
accumulated bytes. -/
theorem read_and_decode_eq_step {chunkSize maxWindowSize : Nat} (hcs : 0 < chunkSize)
    {chunks : List (List Nat)} {previous_chunk : Option (List Nat)} {bytes_read : Nat}
    (h : decodeUtf8 (previous_chunk.getD [] ++ chunks.headD []) = none)
    (hw : ¬maxWindowSize < bytes_read + chunkSize) :
    read_and_decode chunkSize maxWindowSize hcs chunks previous_chunk bytes_read =
      read_and_decode chunkSize maxWindowSize hcs chunks.tail
        (some (previous_chunk.getD [] ++ chunks.headD [])) (bytes_read + chunkSize) := by
  conv_lhs => unfold read_and_decode
  simp only [prev_match_eq, h, if_neg hw]

theorem headD_append_tail_flatten (chunks : List (List Nat)) :
    chunks.headD [] ++ chunks.tail.flatten = chunks.flatten := by
  cases chunks <;> simp

/-- Master lemma for `read_and_decode` on a well-formed stream: if the bytes
still to be read (previous chunk plus remaining read chunks) are the UTF-8
encoding of a text `rest`, the read chunks are nonempty, and the window
budget covers the remaining reads, then the call succeeds, returning a
prefix of `rest` and leaving chunks that encode exactly the rest of it. -/
theorem read_and_decode_ok {chunkSize maxWindowSize : Nat} (hcs : 0 < chunkSize)
    (chunks : List (List Nat)) (previous_chunk : Option (List Nat)) (bytes_read : Nat) :
    ∀ rest : List Nat, ValidText rest →
    previous_chunk.getD [] ++ chunks.flatten = encodeText rest →
    (∀ c ∈ chunks, c ≠ []) →
    bytes_read + chunks.length * chunkSize ≤ maxWindowSize + chunkSize →
    ∃ t chunks' rest',
      read_and_decode chunkSize maxWindowSize hcs chunks previous_chunk bytes_read =
        .ok (t, chunks') ∧
      rest = t ++ rest' ∧ ValidText rest' ∧
      chunks'.flatten = encodeText rest' ∧
      chunks' <:+ chunks ∧
      (t = [] → previous_chunk.getD [] = [] ∧ chunks = []) ∧
      (chunks ≠ [] → chunks'.length < chunks.length) := by
  induction chunks, previous_chunk, bytes_read using read_and_decode.induct chunkSize maxWindowSize hcs with
  | case1 chunks previous_chunk bytes_read chunk chunk' t hdec =>
    intro rest hval hbytes hne _hwin
    unfold_let chunk' chunk at hdec
    rw [prev_match_eq] at hdec
    obtain ⟨henc, htval⟩ := decodeUtf8_sound _ _ hdec
    have hfull : encodeText t ++ chunks.tail.flatten = encodeText rest := by
      rw [henc, List.append_assoc, headD_append_tail_flatten, hbytes]
    obtain ⟨rest', hrest, hJ, hrval⟩ := encodeText_cancel htval hval hfull
    refine ⟨t, chunks.tail, rest', read_and_decode_eq_ok hcs hdec, hrest, hrval, hJ,
      List.tail_suffix chunks, ?_, ?_⟩
    · intro ht
      subst ht
      rw [encodeText_nil] at henc
      obtain ⟨hp, hh⟩ := List.append_eq_nil.mp henc.symm
      refine ⟨hp, ?_⟩
      cases chunks with
      | nil => rfl
      | cons c cr =>
        simp only [List.headD_cons] at hh
        exact absurd hh (hne c (List.mem_cons_self c cr))
    · intro hch
      cases chunks with
      | nil => exact absurd rfl hch
      | cons c cr => simp
  | case2 chunks previous_chunk bytes_read chunk bytes_read' chunk' hdec hwin =>
    intro rest hval hbytes hne hwindow
    exfalso
    unfold_let chunk' chunk at hdec
    unfold_let bytes_read' at hwin
    rw [prev_match_eq] at hdec
    cases chunks with
    | nil =>
      rw [List.flatten_nil, List.append_nil] at hbytes
      have : decodeUtf8 (previous_chunk.getD [] ++ [].headD []) = some rest := by
        simpa [hbytes] using decodeUtf8_encode rest hval
      rw [this] at hdec
      cases hdec
    | cons c cr =>
      cases cr with
      | nil =>
        have : previous_chunk.getD [] ++ [c].headD [] = encodeText rest := by
          simpa using hbytes
        rw [this, decodeUtf8_encode rest hval] at hdec
        cases hdec
      | cons c2 cr2 =>
        simp only [List.length_cons] at hwindow
        have h2 : (cr2.length + 1 + 1) * chunkSize =
            cr2.length * chunkSize + chunkSize + chunkSize := by ring
        omega
  | case3 chunks previous_chunk bytes_read chunk bytes_read' chunk' hdec hwin ih =>
    intro rest hval hbytes hne hwindow
    unfold_let chunk' chunk at hdec ih
    unfold_let bytes_read' at hwin ih
    rw [prev_match_eq] at hdec ih
    cases chunks with
    | nil =>
      exfalso
      rw [List.flatten_nil, List.append_nil] at hbytes
      have : decodeUtf8 (previous_chunk.getD [] ++ [].headD []) = some rest := by
        simpa [hbytes] using decodeUtf8_encode rest hval
      rw [this] at hdec
      cases hdec
    | cons c cr =>
      have hbytes' : (some (previous_chunk.getD [] ++ (c :: cr).headD [])).getD [] ++
          (c :: cr).tail.flatten = encodeText rest := by
        simpa [List.append_assoc] using hbytes
      have hne' : ∀ x ∈ (c :: cr).tail, x ≠ [] :=
        fun x hx => hne x (List.mem_cons_of_mem c hx)
      have hwindow' : (bytes_read + chunkSize) + (c :: cr).tail.length * chunkSize ≤
          maxWindowSize + chunkSize := by
        simp only [List.length_cons, List.tail_cons] at hwindow ⊢
        have h2 : (cr.length + 1) * chunkSize = cr.length * chunkSize + chunkSize := by ring
        omega
      obtain ⟨t, chunks', rest', heq, hrest, hrval, hJ, hsuf, hemp, _hlen⟩ :=
        ih rest hval hbytes' hne' hwindow'
      refine ⟨t, chunks', rest', ?_, hrest, hrval, hJ,
        hsuf.trans (List.tail_suffix (c :: cr)), ?_, ?_⟩
      · rw [read_and_decode_eq_step hcs hdec hwin]
        exact heq
      · intro ht
        obtain ⟨hp, _⟩ := hemp ht
        exfalso
        simp only [Option.getD_some, List.headD_cons] at hp
        exact hne c (List.mem_cons_self c cr) (List.append_eq_nil.mp hp).2
      · intro _
        have h1 : chunks'.length ≤ cr.length := by
          simpa using hsuf.length_le
        simp only [List.length_cons]
        omega

/-- The byte counter accumulates `chunk_size` per read; an error carries a
counter value that exceeded the window. -/
theorem read_and_decode_error {chunkSize maxWindowSize : Nat} (hcs : 0 < chunkSize)
    (chunks : List (List Nat)) (previous_chunk : Option (List Nat)) (bytes_read : Nat) :
    ∀ e : Nat,
    read_and_decode chunkSize maxWindowSize hcs chunks previous_chunk bytes_read = .error e →
    maxWindowSize < e ∧ ∃ k : Nat, 0 < k ∧ e = bytes_read + k * chunkSize := by
  induction chunks, previous_chunk, bytes_read using
      read_and_decode.induct chunkSize maxWindowSize hcs with
  | case1 chunks previous_chunk bytes_read chunk chunk' t hdec =>
    intro e h
    unfold_let chunk' chunk at hdec
    rw [prev_match_eq] at hdec
    rw [read_and_decode_eq_ok hcs hdec] at h
    cases h
  | case2 chunks previous_chunk bytes_read chunk bytes_read' chunk' hdec hwin =>
    intro e h
    unfold_let chunk' chunk at hdec
    unfold_let bytes_read' at hwin
    rw [prev_match_eq] at hdec
    rw [read_and_decode_eq_error hcs hdec hwin] at h
    injection h with h
    subst h
    exact ⟨hwin, 1, Nat.one_pos, by ring⟩
  | case3 chunks previous_chunk bytes_read chunk bytes_read' chunk' hdec hwin ih =>
    intro e h
    unfold_let chunk' chunk at hdec ih
    unfold_let bytes_read' at hwin ih
    rw [prev_match_eq] at hdec ih
    rw [read_and_decode_eq_step hcs hdec hwin] at h
    obtain ⟨h1, k, hk, hke⟩ := ih e h
    exact ⟨h1, k + 1, by omega, by rw [hke]; ring⟩

/-- At end of stream with nothing pending, a read returns the empty text
(`yield_lines` then stops). -/
theorem read_and_decode_eos {chunkSize maxWindowSize : Nat} (hcs : 0 < chunkSize)
    (bytes_read : Nat) :
    read_and_decode chunkSize maxWindowSize hcs [] none bytes_read = .ok ([], []) := by
  have h : decodeUtf8 ((none : Option (List Nat)).getD [] ++ ([] : List (List Nat)).headD []) =
      some [] := decodeUtf8_nil
  simpa using read_and_decode_eq_ok hcs h

/-- Any successful read that returns a nonempty text consumed at least one
chunk, and the remaining chunks are a suffix. -/
theorem read_and_decode_progress {chunkSize maxWindowSize : Nat} (hcs : 0 < chunkSize)
    (chunks : List (List Nat)) (previous_chunk : Option (List Nat)) (bytes_read : Nat) :
    ∀ t chunks',
    read_and_decode chunkSize maxWindowSize hcs chunks previous_chunk bytes_read =
      .ok (t, chunks') →
    chunks' <:+ chunks ∧ (chunks ≠ [] → chunks'.length < chunks.length) := by
  induction chunks, previous_chunk, bytes_read using
      read_and_decode.induct chunkSize maxWindowSize hcs with
  | case1 chunks previous_chunk bytes_read chunk chunk' t hdec =>
    intro t' chunks' h
    unfold_let chunk' chunk at hdec
    rw [prev_match_eq] at hdec
    rw [read_and_decode_eq_ok hcs hdec] at h
    injection h with h
    rw [Prod.mk.injEq] at h
    obtain ⟨-, h2⟩ := h
    subst h2
    refine ⟨List.tail_suffix chunks, ?_⟩
    intro hch
    cases chunks with
    | nil => exact absurd rfl hch
    | cons c cr => simp
  | case2 chunks previous_chunk bytes_read chunk bytes_read' chunk' hdec hwin =>
    intro t' chunks' h
    unfold_let chunk' chunk at hdec
    unfold_let bytes_read' at hwin
    rw [prev_match_eq] at hdec
    rw [read_and_decode_eq_error hcs hdec hwin] at h
    cases h
  | case3 chunks previous_chunk bytes_read chunk bytes_read' chunk' hdec hwin ih =>
    intro t' chunks' h
    unfold_let chunk' chunk at hdec ih
    unfold_let bytes_read' at hwin ih
    rw [prev_match_eq] at hdec ih
    rw [read_and_decode_eq_step hcs hdec hwin] at h
    obtain ⟨hsuf, _⟩ := ih t' chunks' h
    refine ⟨hsuf.trans (List.tail_suffix chunks), ?_⟩
    intro hch
    cases chunks with
    | nil => exact absurd rfl hch
    | cons c cr =>
      have := hsuf.length_le
      simp only [List.tail_cons] at this
      simp only [List.length_cons]
      omega

/-- With no pending bytes, a read from the empty stream returns the empty
text: `t ≠ []` forces at least one unread chunk before the call. -/
theorem read_and_decode_nonempty {chunkSize maxWindowSize : Nat} (hcs : 0 < chunkSize)
    {chunks chunks' : List (List Nat)} {bytes_read : Nat} {t : List Nat}
    (h : read_and_decode chunkSize maxWindowSize hcs chunks none bytes_read = .ok (t, chunks'))
    (ht : t ≠ []) : chunks ≠ [] := by
  intro hch
  subst hch
  rw [read_and_decode_eos hcs bytes_read] at h
  injection h with h
  rw [Prod.mk.injEq] at h
  exact ht h.1.symm

/-!
## `FileReader.yield_lines` (src/reddit_filter_utils.py lines 87-105,
identically src/reddit_zst_filter.py lines 90-109)
-/

/-- Model of Python's `str.split(sep)` for a one-character separator: the
segments between occurrences of `sep`, including empty ones; always at least
one segment. -/
def splitSep (sep : Nat) : List Nat → List (List Nat)
  | [] => [[]]
  | a :: as =>
    match splitSep sep as with
    | [] => [[]]
    | h :: t => if a = sep then [] :: h :: t else (a :: h) :: t

theorem splitSep_ne_nil (sep : Nat) (l : List Nat) : splitSep sep l ≠ [] := by
  cases l with
  | nil => simp [splitSep]
  | cons a as =>
    simp only [splitSep]
    cases h : splitSep sep as with
    | nil => simp
    | cons x xs =>
      split
      · simp
      · split <;> simp

theorem splitSep_nil (sep : Nat) : splitSep sep [] = [[]] := rfl

theorem splitSep_cons_sep (sep : Nat) (as : List Nat) :
    splitSep sep (sep :: as) = [] :: splitSep sep as := by
  simp only [splitSep]
  cases h : splitSep sep as with
  | nil => exact absurd h (splitSep_ne_nil sep as)
  | cons x xs => simp

theorem splitSep_cons_ne (sep a : Nat) (as : List Nat) (ha : a ≠ sep) :
    splitSep sep (a :: as) =
      (a :: (splitSep sep as).headD []) :: (splitSep sep as).tail := by
  simp only [splitSep]
  cases h : splitSep sep as with
  | nil => exact absurd h (splitSep_ne_nil sep as)
  | cons x xs => simp [ha]

/-- No segment produced by `splitSep` contains the separator; in particular
the last one (the pending buffer of `yield_lines`) does not. -/
theorem splitSep_getLast_not_mem (sep : Nat) (l : List Nat) :
    sep ∉ (splitSep sep l).getLastD [] := by
  induction l with
  | nil => simp [splitSep]
  | cons a as ih =>
    by_cases ha : a = sep
    · rw [ha, splitSep_cons_sep]
      cases h : splitSep sep as with
      | nil => exact absurd h (splitSep_ne_nil sep as)
      | cons x xs =>
        rw [h] at ih
        simpa using ih
    · rw [splitSep_cons_ne sep a as ha]
      cases h : splitSep sep as with
      | nil => exact absurd h (splitSep_ne_nil sep as)
      | cons x xs =>
        rw [h] at ih
        cases xs with
        | nil =>
          simp only [List.headD_cons, List.tail_cons, List.getLastD_cons, List.getLastD_nil]
          simp only [List.getLastD_cons, List.getLastD_nil] at ih
          intro hmem
          rcases List.mem_cons.mp hmem with rfl | hmem'
          · exact ha rfl
          · exact ih hmem'
        | cons y ys =>
          simp only [List.headD_cons, List.tail_cons]
          simpa using ih

/-- How `str.split` distributes over concatenation: all whole segments of the
front part, then the pending segment glued to the first segment of the back
part.  This is exactly the invariant the `buffer` of `yield_lines`
maintains. -/
theorem splitSep_append (sep : Nat) (u w : List Nat) :
    splitSep sep (u ++ w) =
      (splitSep sep u).dropLast ++
        ((splitSep sep u).getLastD [] ++ (splitSep sep w).headD []) :: (splitSep sep w).tail := by
  induction u with
  | nil =>
    simp only [List.nil_append, splitSep_nil]
    cases hw : splitSep sep w with
    | nil => exact absurd hw (splitSep_ne_nil sep w)
    | cons x xs => simp
  | cons a u' ih =>
    by_cases ha : a = sep
    · rw [ha]
      simp only [List.cons_append]
      rw [splitSep_cons_sep, splitSep_cons_sep, ih]
      cases hS : splitSep sep u' with
      | nil => exact absurd hS (splitSep_ne_nil sep u')
      | cons s0 S2 => simp [List.getLastD_cons]
    · simp only [List.cons_append]
      rw [splitSep_cons_ne sep a _ ha, splitSep_cons_ne sep a u' ha, ih]
      cases hS : splitSep sep u' with
      | nil => exact absurd hS (splitSep_ne_nil sep u')
      | cons s0 S2 =>
        cases S2 with
        | nil =>
          cases hw : splitSep sep w with
          | nil => exact absurd hw (splitSep_ne_nil sep w)
          | cons x xs => simp
        | cons s1 S3 => simp [List.getLastD_cons]

/-- Splitting a separator-free front followed by `w` glues the front onto
the first segment of `w`'s split. -/
theorem splitSep_no_sep_append (sep : Nat) (b w : List Nat) (hb : sep ∉ b) :
    splitSep sep (b ++ w) =
      (b ++ (splitSep sep w).headD []) :: (splitSep sep w).tail := by
  induction b with
  | nil =>
    simp only [List.nil_append]
    cases hw : splitSep sep w with
    | nil => exact absurd hw (splitSep_ne_nil sep w)
    | cons x xs => simp
  | cons a b' ih =>
    have ha : a ≠ sep := fun h => hb (h ▸ List.mem_cons_self a b')
    have hb' : sep ∉ b' := fun h => hb (List.mem_cons_of_mem a h)
    simp only [List.cons_append]
    rw [splitSep_cons_ne sep a _ ha, ih hb']
    simp

/-- A separator-free list splits into the single segment it is. -/
theorem splitSep_no_sep (sep : Nat) (b : List Nat) (hb : sep ∉ b) :
    splitSep sep b = [b] := by
  have := splitSep_no_sep_append sep b [] hb
  simpa [splitSep_nil] using this

theorem splitSep_append_dropLast (sep : Nat) (u w : List Nat) :
    (splitSep sep (u ++ w)).dropLast =
      (splitSep sep u).dropLast ++
        (splitSep sep ((splitSep sep u).getLastD [] ++ w)).dropLast := by
  rw [splitSep_append sep u w,
    splitSep_no_sep_append sep _ w (splitSep_getLast_not_mem sep u),
    List.dropLast_append_of_ne_nil _ (by simp)]

/-- The body of `FileReader.yield_lines`: repeatedly call `read_and_decode`
(fresh `previous_chunk`/`bytes_read` each time, as in the source), stop on an
empty decoded chunk, otherwise split `buffer + chunk` on newline (scalar 10),
yield all segments but the last and keep the last as the new buffer.  Returns
the yielded lines in order, paired with `some e` when the generator ends by
raising the window-exceeded error (after the lines already yielded). -/
def yield_lines_from (chunkSize maxWindowSize : Nat) (hcs : 0 < chunkSize)
    (chunks : List (List Nat)) (buffer : List Nat) :
    List (List Nat) × Option Nat :=
  match hr : read_and_decode chunkSize maxWindowSize hcs chunks none 0 with
  | .error e => ([], some e)
  | .ok (chunk, rest) =>
    if hc : chunk = [] then ([], none)
    else
      let lines := splitSep 10 (buffer ++ chunk)
      let r := yield_lines_from chunkSize maxWindowSize hcs rest (lines.getLastD [])
      (lines.dropLast ++ r.1, r.2)
termination_by chunks.length
decreasing_by
  exact (read_and_decode_progress hcs chunks none 0 chunk rest hr).2
    (read_and_decode_nonempty hcs hr hc)

/-- Model of `FileReader.yield_lines`: the full line generator for one file, starting
from an empty buffer. -/
def yield_lines (chunkSize maxWindowSize : Nat) (hcs : 0 < chunkSize)
    (chunks : List (List Nat)) : List (List Nat) × Option Nat :=
  yield_lines_from chunkSize maxWindowSize hcs chunks []

theorem yield_lines_from_eq_error {chunkSize maxWindowSize : Nat} (hcs : 0 < chunkSize)
    {chunks : List (List Nat)} {buffer : List Nat} {e : Nat}
    (h : read_and_decode chunkSize maxWindowSize hcs chunks none 0 = .error e) :
    yield_lines_from chunkSize maxWindowSize hcs chunks buffer = ([], some e) := by
  conv_lhs => unfold yield_lines_from
  split
  · next e' heq =>
    rw [h] at heq
    injection heq with heq
    rw [heq]
  · next chunk rest heq =>
    rw [h] at heq
    cases heq

theorem yield_lines_from_eq_done {chunkSize maxWindowSize : Nat} (hcs : 0 < chunkSize)
    {chunks rest : List (List Nat)} {buffer : List Nat}
    (h : read_and_decode chunkSize maxWindowSize hcs chunks none 0 = .ok ([], rest)) :
    yield_lines_from chunkSize maxWindowSize hcs chunks buffer = ([], none) := by
  conv_lhs => unfold yield_lines_from
  split
  · next e' heq =>
    rw [h] at heq
    cases heq
  · next chunk rest' heq =>
    rw [h] at heq
    injection heq with heq
    rw [Prod.mk.injEq] at heq
    obtain ⟨rfl, rfl⟩ := heq
    simp

theorem yield_lines_from_eq_cons {chunkSize maxWindowSize : Nat} (hcs : 0 < chunkSize)
    {chunks rest : List (List Nat)} {buffer chunk : List Nat}
    (h : read_and_decode chunkSize maxWindowSize hcs chunks none 0 = .ok (chunk, rest))
    (hc : chunk ≠ []) :
    yield_lines_from chunkSize maxWindowSize hcs chunks buffer =
      ((splitSep 10 (buffer ++ chunk)).dropLast ++
          (yield_lines_from chunkSize maxWindowSize hcs rest
            ((splitSep 10 (buffer ++ chunk)).getLastD [])).1,
        (yield_lines_from chunkSize maxWindowSize hcs rest
          ((splitSep 10 (buffer ++ chunk)).getLastD [])).2) := by
  conv_lhs => unfold yield_lines_from
  split
  · next e' heq =>
    rw [h] at heq
    cases heq
  · next chunk' rest' heq =>
    rw [h] at heq
    injection heq with heq
    rw [Prod.mk.injEq] at heq
    obtain ⟨rfl, rfl⟩ := heq
    rw [dif_neg hc]

/-- Pipeline specification: over any chunking of the UTF-8 encoding of a
text, with all reads nonempty and enough window budget, `yield_lines`
yields exactly the newline-terminated segments of `buffer ++ text` (all
`split("\n")` segments except the trailing pending one), and no error. -/
theorem yield_lines_from_spec {chunkSize maxWindowSize : Nat} (hcs : 0 < chunkSize)
    (chunks : List (List Nat)) (buffer : List Nat) :
    ∀ rest : List Nat, ValidText rest →
    chunks.flatten = encodeText rest →
    (∀ c ∈ chunks, c ≠ []) →
    chunks.length * chunkSize ≤ maxWindowSize →
    (10 : Nat) ∉ buffer →
    yield_lines_from chunkSize maxWindowSize hcs chunks buffer =
      ((splitSep 10 (buffer ++ rest)).dropLast, none) := by
  induction chunks, buffer using yield_lines_from.induct chunkSize maxWindowSize hcs with
  | case1 chunks buffer e hr =>
    intro rest hval hbytes hne hwin hbuf
    exfalso
    have hwin2 : (0 : Nat) + chunks.length * chunkSize ≤ maxWindowSize + chunkSize := by
      omega
    obtain ⟨t, chunks', rest₁, heq, -⟩ :=
      read_and_decode_ok hcs chunks none 0 rest hval (by simpa using hbytes) hne hwin2
    rw [heq] at hr
    cases hr
  | case2 chunks buffer rest' hr =>
    intro rest hval hbytes hne hwin hbuf
    have hwin2 : (0 : Nat) + chunks.length * chunkSize ≤ maxWindowSize + chunkSize := by
      omega
    obtain ⟨t, chunks', rest₁, heq, hrest, -, -, -, hemp, -⟩ :=
      read_and_decode_ok hcs chunks none 0 rest hval (by simpa using hbytes) hne hwin2
    rw [heq] at hr
    injection hr with hr
    rw [Prod.mk.injEq] at hr
    obtain ⟨ht, rfl⟩ := hr
    obtain ⟨-, hchnil⟩ := hemp ht
    subst hchnil
    rw [List.flatten_nil] at hbytes
    have hrnil : rest = [] := (encodeText_eq_nil rest).mp hbytes.symm
    subst hrnil
    rw [List.append_nil, splitSep_no_sep 10 buffer hbuf]
    rw [yield_lines_from_eq_done hcs (ht ▸ heq)]
    rfl
  | case3 chunks buffer chunk rest' hr hc lines ih =>
    intro rest hval hbytes hne hwin hbuf
    have hwin2 : (0 : Nat) + chunks.length * chunkSize ≤ maxWindowSize + chunkSize := by
      omega
    obtain ⟨t, chunks', rest₁, heq, hrest, hrval, hJ, hsuf, -, -⟩ :=
      read_and_decode_ok hcs chunks none 0 rest hval (by simpa using hbytes) hne hwin2
    rw [heq] at hr
    injection hr with hr
    rw [Prod.mk.injEq] at hr
    obtain ⟨rfl, rfl⟩ := hr
    have hne' : ∀ c ∈ chunks', c ≠ [] := fun c hcmem => hne c (hsuf.subset hcmem)
    have hwin' : chunks'.length * chunkSize ≤ maxWindowSize :=
      le_trans (Nat.mul_le_mul_right chunkSize hsuf.length_le) hwin
    have hbuf' : (10 : Nat) ∉ lines.getLastD [] := by
      unfold_let lines
      exact splitSep_getLast_not_mem 10 (buffer ++ t)
    have hout := ih rest₁ hrval hJ hne' hwin' hbuf'
    unfold_let lines at hout
    rw [yield_lines_from_eq_cons hcs heq hc, hout]
    subst hrest
    rw [← List.append_assoc, splitSep_append_dropLast 10 (buffer ++ t) rest₁]

theorem dropLast_append_getLastD (l : List (List Nat)) (h : l ≠ []) :
    l.dropLast ++ [l.getLastD []] = l := by
  rw [List.getLastD_eq_getLast?, List.getLast?_eq_getLast l h]
  simp [List.dropLast_append_getLast]

theorem splitSep_concat_sep (sep : Nat) (ts : List Nat) :
    splitSep sep (ts ++ [sep]) = splitSep sep ts ++ [[]] := by
  rw [splitSep_append sep ts [sep], splitSep_cons_sep sep [], splitSep_nil]
  simp only [List.headD_cons, List.tail_cons, List.append_nil]
  rw [show ((splitSep sep ts).getLastD [] :: [([] : List Nat)]) =
      [(splitSep sep ts).getLastD []] ++ [[]] from rfl,
    ← List.append_assoc, dropLast_append_getLastD _ (splitSep_ne_nil sep ts)]

theorem splitSep_concat_ne (sep a : Nat) (ts : List Nat) (ha : a ≠ sep) :
    splitSep sep (ts ++ [a]) =
      (splitSep sep ts).dropLast ++ [(splitSep sep ts).getLastD [] ++ [a]] := by
  rw [splitSep_append sep ts [a], splitSep_cons_ne sep a [] ha, splitSep_nil]
  simp

/-- The lines of a text in the ordinary sense (the behaviour of Python's
`str.splitlines` restricted to the newline separator): all `split("\n")`
segments, except that a trailing empty segment (from a terminating newline)
is not a line.  This is the spec-side notion of "the sequence of lines of
the original text" against which the pipeline is compared. -/
def linesOfText (ts : List Nat) : List (List Nat) :=
  if (splitSep 10 ts).getLastD [] = [] then (splitSep 10 ts).dropLast
  else splitSep 10 ts

/-- For a text ending in a newline, the yielded segments (all but the
pending one) are exactly its lines. -/
theorem dropLast_splitSep_of_trailing {ts : List Nat} (h : ts.getLast? = some 10) :
    (splitSep 10 ts).dropLast = linesOfText ts := by
  obtain ⟨ts', rfl⟩ := List.getLast?_eq_some_iff.mp h
  rw [linesOfText, splitSep_concat_sep 10 ts']
  simp

/-- For a nonempty text not ending in a newline, the yielded segments are
all its lines except the last. -/
theorem dropLast_splitSep_of_no_trailing {ts : List Nat} (hne : ts ≠ [])
    (h : ts.getLast? ≠ some 10) :
    (splitSep 10 ts).dropLast = (linesOfText ts).dropLast ∧
      (linesOfText ts).length = (splitSep 10 ts).dropLast.length + 1 := by
  have hdecomp : ∃ ts' a, ts = ts' ++ [a] := by
    obtain ⟨l'⟩ := List.getLast?_eq_some_iff.mp (List.getLast?_eq_getLast ts hne)
    exact ⟨l', ts.getLast hne, by assumption⟩
  obtain ⟨ts', a, rfl⟩ := hdecomp
  have ha : a ≠ 10 := by
    intro hcontra
    subst hcontra
    exact h (by simp)
  rw [linesOfText, splitSep_concat_ne 10 a ts' ha]
  constructor
  · rw [if_neg (by simp)]
  · rw [if_neg (by simp)]
    simp

/-!
## Termination of the decode-retry loop (fuel-indexed variant)

`read_and_decodeF` runs the same retry loop as `read_and_decode` but gives up
(returning `none`) when an explicit step budget is exhausted.  Proving that a
budget linear in the input always suffices is the formal content of "the
retry loop terminates": every call returns after finitely many reads. -/
def read_and_decodeF (chunkSize maxWindowSize : Nat) :
    Nat → List (List Nat) → Option (List Nat) → Nat →
    Option (Except Nat (List Nat × List (List Nat)))
  | 0, _, _, _ => none
  | fuel + 1, chunks, previous_chunk, bytes_read =>
    let chunk := chunks.headD []
    let bytes_read' := bytes_read + chunkSize
    let chunk' := match previous_chunk with
      | some prev => prev ++ chunk
      | none => chunk
    match decodeUtf8 chunk' with
    | some t => some (.ok (t, chunks.tail))
    | none =>
      if maxWindowSize < bytes_read' then some (.error bytes_read')
      else read_and_decodeF chunkSize maxWindowSize fuel chunks.tail (some chunk') bytes_read'

/-- Fuel adequacy: with any budget larger than
`chunks.length + (maxWindowSize + 1 - bytes_read)`, the fuel-indexed loop
finishes and agrees with the total function.  Each retry adds `chunk_size ≥ 1`
to the byte counter, so the loop stops — by success or by the window error —
after finitely many reads. -/
theorem read_and_decodeF_adequate {chunkSize maxWindowSize : Nat} (hcs : 0 < chunkSize) :
    ∀ (fuel : Nat) (chunks : List (List Nat)) (previous_chunk : Option (List Nat))
      (bytes_read : Nat),
    chunks.length + (maxWindowSize + 1 - bytes_read) < fuel →
    read_and_decodeF chunkSize maxWindowSize fuel chunks previous_chunk bytes_read =
      some (read_and_decode chunkSize maxWindowSize hcs chunks previous_chunk bytes_read) := by
  intro fuel
  induction fuel with
  | zero =>
    intro chunks previous_chunk bytes_read hlt
    omega
  | succ fuel ih =>
    intro chunks previous_chunk bytes_read hlt
    simp only [read_and_decodeF, prev_match_eq]
    cases hdec : decodeUtf8 (previous_chunk.getD [] ++ chunks.headD []) with
    | some t =>
      rw [read_and_decode_eq_ok hcs hdec]
    | none =>
      by_cases hwin : maxWindowSize < bytes_read + chunkSize
      · rw [if_pos hwin, read_and_decode_eq_error hcs hdec hwin]
      · rw [if_neg hwin, read_and_decode_eq_step hcs hdec hwin]
        apply ih
        cases chunks with
        | nil => simp only [List.tail_nil, List.length_nil] at hlt ⊢; omega
        | cons c cr => simp only [List.tail_cons, List.length_cons] at hlt ⊢; omega

/-!
## Per-line filtering (`process_file_python`, src/reddit_zst_filter.py
lines 154-240)

`json_loads` (orjson) is external: a line's parse outcome is modelled by
`LineParse`.  A parsed record is an association list from field names to
values; only whether a value is a string matters to the filter (a non-string
value makes `obj[field].lower()` raise `AttributeError`).  Compiled regex
patterns are external too, modelled as predicates on the observed value
(`re.Pattern.search` returning a match or `None` becomes `Bool`). -/

/-- Model of Python's `str.lower` on one scalar (ASCII letters; other
scalars are left unchanged, which is all the filter's proofs rely on). -/
def toLowerScalar (c : Nat) : Nat :=
  if 65 ≤ c ∧ c ≤ 90 then c + 32 else c

/-- Model of Python's `str.lower`. -/
def toLowerStr (s : List Nat) : List Nat :=
  s.map toLowerScalar

/-- A JSON value at the filtered field: a string, or anything else (on which
`.lower()` raises `AttributeError`). -/
inductive JValue where
  | str : List Nat → JValue
  | nonstr : JValue
deriving DecidableEq

/-- Outcome of `json_loads(line)`: failure, or a record mapping field names
to values. -/
inductive LineParse where
  | parse_fail : LineParse
  | record : List (List Nat × JValue) → LineParse
deriving DecidableEq

/-- Lookup `obj[field]`: first binding of the field name, `none` meaning
`KeyError`. -/
def getField (r : List (List Nat × JValue)) (field : List Nat) : Option JValue :=
  (r.find? (fun p => p.1 == field)).map (fun p => p.2)

/-- The duck-typed `values` argument: a set of (lower-cased) strings for
exact matching, or a list of compiled patterns for regex matching. -/
inductive FilterValues where
  | strs : List (List Nat) → FilterValues
  | pats : List (List Nat → Bool) → FilterValues

/-- The single-value fast path set up before the loop:
`value = min(values) if len(values) == 1 and not regex else None`
(`min` of a one-element set is its element). -/
def single_value : FilterValues → Bool → Option (List Nat)
  | .strs vs, false => if vs.length = 1 then vs.head? else none
  | _, _ => none

/-- The match decision of the loop body on the observed (lower-cased) field
value: regex search any pattern; else direct equality on the fast path, else
set membership. -/
def matchValue (values : FilterValues) (regex : Bool) (value : Option (List Nat))
    (observed : List Nat) : Bool :=
  if regex then
    match values with
    | .pats ps => ps.any (fun p => p observed)
    | .strs _ => false
  else
    match value with
    | some v => observed == v
    | none =>
      match values with
      | .strs vs => vs.contains observed
      | .pats _ => false

/-- Counters and accumulated matches of the per-file loop. -/
structure FileCounts where
  lines_processed : Nat
  error_lines : Nat
  matched_records : List (List (List Nat × JValue))
deriving DecidableEq

/-- One iteration of the `for line in FileReader.yield_lines(...)` body:
parse failure, missing field and non-string field value all hit the
`except (KeyError, json.JSONDecodeError, AttributeError)` arm; every line
increments `lines_processed`. -/
def stepLine (field : List Nat) (values : FilterValues) (regex : Bool)
    (value : Option (List Nat)) (acc : FileCounts) (lp : LineParse) : FileCounts :=
  match lp with
  | .parse_fail =>
    ⟨acc.lines_processed + 1, acc.error_lines + 1, acc.matched_records⟩
  | .record r =>
    match getField r field with
    | none => ⟨acc.lines_processed + 1, acc.error_lines + 1, acc.matched_records⟩
    | some .nonstr => ⟨acc.lines_processed + 1, acc.error_lines + 1, acc.matched_records⟩
    | some (.str s) =>
      if matchValue values regex value (toLowerStr s) then
        ⟨acc.lines_processed + 1, acc.error_lines, acc.matched_records ++ [r]⟩
      else
        ⟨acc.lines_processed + 1, acc.error_lines, acc.matched_records⟩

/-- The whole scanning loop over the parsed lines of one file. -/
def processLines (field : List Nat) (values : FilterValues) (regex : Bool)
    (value : Option (List Nat)) (lps : List LineParse) : FileCounts :=
  lps.foldl (stepLine field values regex value) ⟨0, 0, []⟩

/-- The tuple `(file_path, lines_processed, matched, error_lines)` returned
by `process_file_python`. -/
structure ProcessingResult where
  file_path : List Nat
  lines_processed : Nat
  matched_count : Nat
  error_lines : Nat
deriving DecidableEq

/-- Model of `process_file_python`: drive `yield_lines`, scan each line, and hand the
accumulated matches to the pandas sink.  The sink is external; `write_ok`
says whether `DataFrame.to_parquet`/`to_csv` would succeed.  The returned
flag records whether an output file was written.  A decode error aborts the
scan after the already-yielded lines and returns zero matches; a failed
write also returns zero matches and writes nothing; with no matches no file
is written. -/
def process_file_python (field : List Nat) (values : FilterValues) (regex : Bool)
    (chunkSize maxWindowSize : Nat) (hcs : 0 < chunkSize)
    (file_chunks : List (List Nat)) (parse : List Nat → LineParse)
    (file_path : List Nat) (write_ok : Bool) :
    ProcessingResult × Bool :=
  let value := single_value values regex
  let ld := yield_lines chunkSize maxWindowSize hcs file_chunks
  let counts := processLines field values regex value (ld.1.map parse)
  match ld.2 with
  | some _ => (⟨file_path, counts.lines_processed, 0, counts.error_lines⟩, false)
  | none =>
    if counts.matched_records ≠ [] then
      if write_ok then
        (⟨file_path, counts.lines_processed, counts.matched_records.length,
          counts.error_lines⟩, true)
      else
        (⟨file_path, counts.lines_processed, 0, counts.error_lines⟩, false)
    else
      (⟨file_path, counts.lines_processed, 0, counts.error_lines⟩, false)

theorem stepLine_split (f : List Nat) (v : FilterValues) (rx : Bool)
    (val : Option (List Nat)) (a b : Nat) (c : List (List (List Nat × JValue)))
    (lp : LineParse) :
    stepLine f v rx val ⟨a, b, c⟩ lp =
      ⟨a + (stepLine f v rx val ⟨0, 0, []⟩ lp).lines_processed,
       b + (stepLine f v rx val ⟨0, 0, []⟩ lp).error_lines,
       c ++ (stepLine f v rx val ⟨0, 0, []⟩ lp).matched_records⟩ := by
  cases lp with
  | parse_fail => simp [stepLine]
  | record rec =>
    cases hg : getField rec f with
    | none => simp [stepLine, hg]
    | some jv =>
      cases jv with
      | nonstr => simp [stepLine, hg]
      | str s =>
        simp only [stepLine, hg]
        split <;> simp [*]

theorem foldl_stepLine_init (f : List Nat) (v : FilterValues) (rx : Bool)
    (val : Option (List Nat)) (lps : List LineParse) :
    ∀ (a b : Nat) (c : List (List (List Nat × JValue))),
    lps.foldl (stepLine f v rx val) ⟨a, b, c⟩ =
      ⟨a + (processLines f v rx val lps).lines_processed,
       b + (processLines f v rx val lps).error_lines,
       c ++ (processLines f v rx val lps).matched_records⟩ := by
  induction lps with
  | nil => intro a b c; simp [processLines]
  | cons lp lps ih =>
    intro a b c
    rw [List.foldl_cons, stepLine_split]
    rw [ih]
    have hzero : processLines f v rx val (lp :: lps) =
        lps.foldl (stepLine f v rx val) (stepLine f v rx val ⟨0, 0, []⟩ lp) := by
      simp [processLines]
    rw [hzero, show stepLine f v rx val ⟨0, 0, []⟩ lp =
        (⟨(stepLine f v rx val ⟨0, 0, []⟩ lp).lines_processed,
          (stepLine f v rx val ⟨0, 0, []⟩ lp).error_lines,
          (stepLine f v rx val ⟨0, 0, []⟩ lp).matched_records⟩ : FileCounts) from rfl,
      ih]
    simp [List.append_assoc]
    omega

/-- Running `processLines` over a concatenation: counters add, matches
concatenate — scanning continues past any line. -/
theorem processLines_append (f : List Nat) (v : FilterValues) (rx : Bool)
    (val : Option (List Nat)) (xs ys : List LineParse) :
    processLines f v rx val (xs ++ ys) =
      ⟨(processLines f v rx val xs).lines_processed +
         (processLines f v rx val ys).lines_processed,
       (processLines f v rx val xs).error_lines +
         (processLines f v rx val ys).error_lines,
       (processLines f v rx val xs).matched_records ++
         (processLines f v rx val ys).matched_records⟩ := by
  rw [processLines, List.foldl_append]
  rw [show (List.foldl (stepLine f v rx val) ⟨0, 0, []⟩ xs) = processLines f v rx val xs
      from rfl]
  rw [show (processLines f v rx val xs) =
      (⟨(processLines f v rx val xs).lines_processed,
        (processLines f v rx val xs).error_lines,
        (processLines f v rx val xs).matched_records⟩ : FileCounts) from rfl,
    foldl_stepLine_init]

/-- Every scanned line is counted once. -/
theorem processLines_length (f : List Nat) (v : FilterValues) (rx : Bool)
    (val : Option (List Nat)) (lps : List LineParse) :
    (processLines f v rx val lps).lines_processed = lps.length := by
  induction lps with
  | nil => simp [processLines]
  | cons lp lps ih =>
    have : processLines f v rx val (lp :: lps) =
        processLines f v rx val ([lp] ++ lps) := by simp
    rw [this, processLines_append, ih]
    cases lp with
    | parse_fail => simp [processLines, stepLine, Nat.add_comm]
    | record rec =>
      cases hg : getField rec f with
      | none => simp [processLines, stepLine, hg, Nat.add_comm]
      | some jv =>
        cases jv with
        | nonstr => simp [processLines, stepLine, hg, Nat.add_comm]
        | str s =>
          simp only [processLines, List.foldl_cons, List.foldl_nil, stepLine, hg,
            List.length_cons]
          split <;> simp [*, Nat.add_comm]

/-!
## Spec-modelled components

The spec describes a Partial matching mode and a CheckpointStore, neither of
which appears in the sources under `src/` (the scripts there implement only
Exact and Regex matching, and no checkpointing).  They are modelled from the
spec's words below, and clearly marked as such. -/

/-- Modelled from the spec: the Partial matching mode (spec §4.3, CLI
`--partial`) is absent from the code under `src/`; per the spec, "Partial
mode: Matched iff any configured value is a substring of the normalized
field value".  The configured values are lower-cased strings (spec §3,
FilterCriterion), the field value is lower-cased before comparison. -/
def substringMatchValue (vs : List (List Nat)) (observed : List Nat) : Bool :=
  vs.any (fun v => decide (v <:+: observed))

/-- Classification of one line by RecordFilter. -/
inductive LineClass where
  | matched : LineClass
  | not_matched : LineClass
  | err : LineClass
deriving DecidableEq

/-- Modelled from the spec: RecordFilter in Partial mode.  Parse failure,
missing field and non-string field value classify as Error exactly as in the
code's Exact/Regex loop (src/reddit_zst_filter.py lines 174-196); the match
decision is the spec's substring test on the lower-cased field value. -/
def classify_line_substring (field : List Nat) (vs : List (List Nat))
    (lp : LineParse) : LineClass :=
  match lp with
  | .parse_fail => .err
  | .record r =>
    match getField r field with
    | none => .err
    | some .nonstr => .err
    | some (.str s) =>
      if substringMatchValue vs (toLowerStr s) then .matched else .not_matched

/-- Modelled from the spec: `CheckpointStore.pending(allIds)` — no
checkpoint code exists under `src/`; per the spec §4.5, "`pending` is the
set difference between all enumerated files and the processed set,
preserving the enumeration order". -/
def pending (allIds processed : List (List Nat)) : List (List Nat) :=
  allIds.filter (fun fid => !(processed.contains fid))

/-!
## `generate_output_path` (src/reddit_filter_utils.py lines 242-256,
identically src/reddit_zst_filter.py lines 455-469)
-/

/-- Model of Python's `s.replace(pat, '')` (as in
`base_name.replace(file_extension, '')`): remove every non-overlapping
occurrence of `pat`, scanning left to right.  (Python's behaviour for an
empty pattern — interleaving the replacement — is irrelevant here and the
empty pattern is left unchanged.) -/
def replaceAll (pat : List Nat) : List Nat → List Nat
  | [] => []
  | a :: s =>
    if pat ≠ [] ∧ pat.isPrefixOf (a :: s) then
      replaceAll pat ((a :: s).drop pat.length)
    else
      a :: replaceAll pat s
termination_by s => s.length
decreasing_by
  · next h =>
    simp only [List.length_cons, List.length_drop]
    have : pat.length ≠ 0 := fun hz => h.1 (List.eq_nil_of_length_eq_zero hz)
    omega
  · simp

/-- Model of `os.path.basename`: the part after the last `/` (byte 47). -/
def basenameOf (p : List Nat) : List Nat :=
  (splitSep 47 p).getLastD []

/-- Model of `os.path.join(output_dir, output_name)` for a directory without a
trailing slash. -/
def joinPath (d f : List Nat) : List Nat :=
  d ++ 47 :: f

def csvSuffix : List Nat := [46, 99, 115, 118]

def csvGzSuffix : List Nat := [46, 99, 115, 118, 46, 103, 122]

def parquetSuffix : List Nat := [46, 112, 97, 114, 113, 117, 101, 116]

/-- Model of `generate_output_path`: strip every occurrence of the configured file
extension from the input base name (`str.replace`, not a suffix strip),
then append the format suffix (`.csv`, `.csv.gz` when csv compression is
gzip, or `.parquet`) and join with the output directory. -/
def generate_output_path (input_file output_dir : List Nat)
    (format_csv csv_gzip : Bool) (file_extension : List Nat) : List Nat :=
  let base_name := basenameOf input_file
  let name_without_ext := replaceAll file_extension base_name
  let output_name :=
    if format_csv then
      if csv_gzip then name_without_ext ++ csvGzSuffix
      else name_without_ext ++ csvSuffix
    else name_without_ext ++ parquetSuffix
  joinPath output_dir output_name

theorem replaceAll_nil (pat : List Nat) : replaceAll pat [] = [] := by
  unfold replaceAll; rfl

theorem replaceAll_cons_pos {pat : List Nat} {a : Nat} {s : List Nat}
    (h : pat ≠ [] ∧ pat.isPrefixOf (a :: s)) :
    replaceAll pat (a :: s) = replaceAll pat ((a :: s).drop pat.length) := by
  conv_lhs => unfold replaceAll
  rw [if_pos h]

theorem replaceAll_cons_neg {pat : List Nat} {a : Nat} {s : List Nat}
    (h : ¬(pat ≠ [] ∧ pat.isPrefixOf (a :: s))) :
    replaceAll pat (a :: s) = a :: replaceAll pat s := by
  conv_lhs => unfold replaceAll
  rw [if_neg h]

theorem isPrefixOf_self_append (l r : List Nat) : l.isPrefixOf (l ++ r) = true := by
  induction l with
  | nil => simp [List.isPrefixOf]
  | cons a as ih => simp [List.isPrefixOf, ih]

/-- Scanning `str.replace(pat, '')` removes an occurrence of `pat` at the current
scan position. -/
theorem replaceAll_append_pat (pat y : List Nat) (hp : pat ≠ []) :
    replaceAll pat (pat ++ y) = replaceAll pat y := by
  cases pat with
  | nil => exact absurd rfl hp
  | cons p0 pr =>
    rw [List.cons_append,
      replaceAll_cons_pos ⟨hp, by
        rw [← List.cons_append]; exact isPrefixOf_self_append (p0 :: pr) y⟩]
    rw [← List.cons_append, List.drop_left]

/-- Scanning `str.replace(pat, '')` removes an interior occurrence of `pat`: if no
occurrence starts inside `x`, the scan passes over `x` and removes the
occurrence that follows it. -/
theorem replaceAll_interior (pat x y : List Nat) (hp : pat ≠ [])
    (hx : ∀ i, i < x.length → ¬ pat.isPrefixOf ((x ++ pat ++ y).drop i)) :
    replaceAll pat (x ++ pat ++ y) = x ++ replaceAll pat y := by
  induction x with
  | nil =>
    rw [List.nil_append, List.nil_append, replaceAll_append_pat pat y hp]
  | cons a x' ih =>
    have h0 := hx 0 (by simp)
    rw [List.drop_zero] at h0
    have hcons : (a :: x') ++ pat ++ y = a :: (x' ++ pat ++ y) := by simp
    rw [hcons, replaceAll_cons_neg (by
      intro hcontra
      exact h0 (hcons ▸ hcontra.2))]
    rw [ih (fun i hi => by
      have := hx (i + 1) (by simp; omega)
      rwa [hcons, List.drop_succ_cons] at this)]
    rfl

/-!
## Claim theorems
-/

/-- C1 (counterexample): the claim "for every original text ... the pipeline
yields exactly the sequence of lines of the original text" fails on the
one-character text "a" (no trailing newline): the stream decodes fine within
an ample window, but the pipeline yields no lines at all while the text has
the single line "a". -/
theorem C1_counterexample :
    ValidText [97] ∧ [[97]].flatten = encodeText [97] ∧
    (∀ c ∈ [[(97 : Nat)]], c ≠ []) ∧ ([[(97 : Nat)]].length * 1 ≤ 10) ∧
    (yield_lines 1 10 Nat.one_pos [[97]]).1 ≠ linesOfText [97] := by
  refine ⟨by decide, by decide, by decide, by decide, ?_⟩
  have h1 : read_and_decode 1 10 Nat.one_pos [[97]] none 0 = .ok ([97], []) :=
    read_and_decode_eq_ok Nat.one_pos (by decide)
  rw [yield_lines, yield_lines_from_eq_cons Nat.one_pos h1 (by decide),
    yield_lines_from_eq_done Nat.one_pos (read_and_decode_eos Nat.one_pos 0)]
  decide

/-- C1 (amended): for every original text that ends with a newline, and
every way of splitting its UTF-8 byte stream into nonempty read chunks —
including splits inside a multi-byte character — within the decode-window
budget, piping the stream through `read_and_decode` and `yield_lines`
yields exactly the sequence of lines of the original text, with no
error. -/
theorem C1_lines_roundtrip (chunkSize maxWindowSize : Nat) (hcs : 0 < chunkSize)
    (ts : List Nat) (chunks : List (List Nat))
    (hval : ValidText ts)
    (hsplit : chunks.flatten = encodeText ts)
    (hne : ∀ c ∈ chunks, c ≠ [])
    (hwin : chunks.length * chunkSize ≤ maxWindowSize)
    (hnl : ts.getLast? = some 10) :
    yield_lines chunkSize maxWindowSize hcs chunks = (linesOfText ts, none) := by
  rw [yield_lines, yield_lines_from_spec hcs chunks [] ts hval hsplit hne hwin
    (List.not_mem_nil 10)]
  rw [List.nil_append, dropLast_splitSep_of_trailing hnl]

/-- C1 witness: the two-line text "a\n" split into two one-byte reads. -/
theorem C1_lines_roundtrip_witness :
    yield_lines 1 10 Nat.one_pos [[97], [10]] = (linesOfText [97, 10], none) :=
  C1_lines_roundtrip 1 10 Nat.one_pos [97, 10] [[97], [10]]
    (by decide) (by decide) (by decide) (by decide) (by decide)

/-- C7: for every input file whose decoded text does not end with a newline,
the final pending buffer is not emitted: the pipeline yields exactly the
lines of the text minus the last one, dropping the file's last logical
record. -/
theorem C7_drop_unterminated_last (chunkSize maxWindowSize : Nat) (hcs : 0 < chunkSize)
    (ts : List Nat) (chunks : List (List Nat))
    (hval : ValidText ts)
    (hsplit : chunks.flatten = encodeText ts)
    (hne : ∀ c ∈ chunks, c ≠ [])
    (hwin : chunks.length * chunkSize ≤ maxWindowSize)
    (hts : ts ≠ [])
    (hnl : ts.getLast? ≠ some 10) :
    (yield_lines chunkSize maxWindowSize hcs chunks).1 = (linesOfText ts).dropLast ∧
    (linesOfText ts).length =
      (yield_lines chunkSize maxWindowSize hcs chunks).1.length + 1 := by
  rw [yield_lines, yield_lines_from_spec hcs chunks [] ts hval hsplit hne hwin
    (List.not_mem_nil 10)]
  rw [List.nil_append]
  obtain ⟨h1, h2⟩ := dropLast_splitSep_of_no_trailing hts hnl
  exact ⟨h1, h2⟩

/-- C7 witness: the text "a\nb" (no trailing newline) in one read: only
"a" is yielded and the last logical record "b" is dropped. -/
theorem C7_drop_unterminated_last_witness :
    (yield_lines 3 10 (by decide) [[97, 10, 98]]).1 = (linesOfText [97, 10, 98]).dropLast ∧
    (linesOfText [97, 10, 98]).length =
      (yield_lines 3 10 (by decide) [[97, 10, 98]]).1.length + 1 :=
  C7_drop_unterminated_last 3 10 (by decide) [97, 10, 98] [[97, 10, 98]]
    (by decide) (by decide) (by decide) (by decide) (by decide) (by decide)

/-- C3: the decode-retry loop accumulates a running byte counter of
`chunk_size` per read across retries.  (i) Whenever the loop raises, the
error carries that accumulated counter — `bytes_read` after `k ≥ 1` reads —
and the counter exceeds the window limit.  (ii) Conversely, whenever a
decode attempt fails with the counter beyond the window limit, the loop
raises with exactly that counter.  The concrete 10-byte-window scenario is
the witness. -/
theorem C3_window_exceeded :
    (∀ (chunkSize maxWindowSize : Nat) (hcs : 0 < chunkSize)
       (chunks : List (List Nat)) (previous_chunk : Option (List Nat))
       (bytes_read e : Nat),
       read_and_decode chunkSize maxWindowSize hcs chunks previous_chunk bytes_read =
         .error e →
       maxWindowSize < e ∧ ∃ k : Nat, 0 < k ∧ e = bytes_read + k * chunkSize) ∧
    (∀ (chunkSize maxWindowSize : Nat) (hcs : 0 < chunkSize)
       (chunks : List (List Nat)) (previous_chunk : Option (List Nat))
       (bytes_read : Nat),
       decodeUtf8 (previous_chunk.getD [] ++ chunks.headD []) = none →
       maxWindowSize < bytes_read + chunkSize →
       read_and_decode chunkSize maxWindowSize hcs chunks previous_chunk bytes_read =
         .error (bytes_read + chunkSize)) :=
  ⟨fun _ _ hcs chunks prev br e h => read_and_decode_error hcs chunks prev br e h,
   fun _ _ hcs _ _ _ hdec hwin => read_and_decode_eq_error hcs hdec hwin⟩

/-- C3 witness: a 10-byte window over the stream "€😀😀é" read 2 bytes at a
time: the decode attempts at 2,4,6,8,10 bytes all fail inside multi-byte
characters, the attempt at 12 bytes (the character boundary sits at byte 11)
fails with the counter at 12 > 10 and the error reports `bytes_read = 12`,
accumulated as 6 reads of `chunk_size = 2`. -/
theorem C3_window_exceeded_witness :
    10 < 12 ∧ ∃ k : Nat, 0 < k ∧ 12 = 0 + k * 2 :=
  C3_window_exceeded.1 2 10 (by decide)
    [[226, 130], [172, 240], [159, 152], [128, 240], [159, 152], [128, 195], [169]]
    none 0 12
    (by
      rw [read_and_decode_eq_step (by decide) (by decide) (by decide),
        read_and_decode_eq_step (by decide) (by decide) (by decide),
        read_and_decode_eq_step (by decide) (by decide) (by decide),
        read_and_decode_eq_step (by decide) (by decide) (by decide),
        read_and_decode_eq_step (by decide) (by decide) (by decide),
        read_and_decode_eq_error (by decide) (by decide) (by decide)])

/-- C9: for every `chunk_size ≥ 1` and every window size, the decode-retry
of `read_and_decode` terminates after finitely many reads: a step budget of
`chunks.length + maxWindowSize + 2` always suffices for the fuel-indexed
loop to return — with the decoded text or the window error — and its result
is the total function's.  In particular a stream that ends inside a
multi-byte character cannot retry forever. -/
theorem C9_retry_terminates (chunkSize maxWindowSize : Nat) (hcs : 0 < chunkSize)
    (chunks : List (List Nat)) (previous_chunk : Option (List Nat)) (bytes_read : Nat) :
    read_and_decodeF chunkSize maxWindowSize (chunks.length + maxWindowSize + 2)
        chunks previous_chunk bytes_read =
      some (read_and_decode chunkSize maxWindowSize hcs chunks previous_chunk
        bytes_read) :=
  read_and_decodeF_adequate hcs _ chunks previous_chunk bytes_read (by omega)

/-- C9 witness: a truncated file ending inside the two-byte character "é"
(lone lead byte 0xC3): the loop stops (with the window error) instead of
retrying forever. -/
theorem C9_retry_terminates_witness :
    read_and_decodeF 1 3 ([[195]].length + 3 + 2) [[195]] none 0 =
      some (read_and_decode 1 3 Nat.one_pos [[195]] none 0) :=
  C9_retry_terminates 1 3 Nat.one_pos [[195]] none 0

/-- C2 (Partial mode, modelled from the spec): for every line whose record
parses and has a string value at the configured field, the Partial-mode
RecordFilter classifies the line as Matched iff some configured
(lower-cased) value is a substring of the lower-cased field value; and the
match is reflexive — any value occurring verbatim in the field, whose
lower-casing is configured, matches. -/
theorem C2_substring_mode (field : List Nat) (vs : List (List Nat))
    (r : List (List Nat × JValue)) (s : List Nat)
    (hs : getField r field = some (.str s)) :
    (classify_line_substring field vs (.record r) = .matched ↔
      ∃ v ∈ vs, v <:+: toLowerStr s) ∧
    (∀ w : List Nat, toLowerStr w ∈ vs → w <:+: s →
      classify_line_substring field vs (.record r) = .matched) := by
  have hcls : classify_line_substring field vs (.record r) =
      if substringMatchValue vs (toLowerStr s) then .matched else .not_matched := by
    simp [classify_line_substring, hs]
  have hiff : substringMatchValue vs (toLowerStr s) = true ↔
      ∃ v ∈ vs, v <:+: toLowerStr s := by
    simp [substringMatchValue, List.any_eq_true]
  constructor
  · rw [hcls]
    by_cases hm : substringMatchValue vs (toLowerStr s)
    · rw [if_pos hm]
      exact ⟨fun _ => hiff.mp hm, fun _ => rfl⟩
    · rw [if_neg hm]
      constructor
      · intro hcontra
        exact absurd hcontra (by simp)
      · intro hex
        exact absurd (hiff.mpr hex) hm
  · intro w hw hinf
    rw [hcls, if_pos (hiff.mpr ⟨toLowerStr w, hw, hinf.map toLowerScalar⟩)]

/-- C2 witness: field value "Uk" with configured lower-cased value "uk":
the value occurs verbatim up to case and the line is Matched. -/
theorem C2_substring_mode_witness :
    classify_line_substring [102] [[117, 107]]
      (.record [([102], .str [85, 107])]) = .matched :=
  (C2_substring_mode [102] [[117, 107]] [([102], .str [85, 107])] [85, 107]
    (by decide)).2 [85, 107] (by decide) (by decide)

/-- C4: for a criterion with exactly one value in Exact mode (regex off),
the single-value fast path (`observed == value`) classifies every field
value — including ones differing only in case — identically to the general
set-membership test, both per field value and over a whole scanned file. -/
theorem C4_fast_path_equiv (vs : List (List Nat)) (h1 : vs.length = 1) :
    (∀ observed : List Nat,
      matchValue (.strs vs) false (single_value (.strs vs) false) observed =
        matchValue (.strs vs) false none observed) ∧
    (∀ (field : List Nat) (lps : List LineParse),
      processLines field (.strs vs) false (single_value (.strs vs) false) lps =
        processLines field (.strs vs) false none lps) := by
  obtain ⟨v, rfl⟩ := List.length_eq_one.mp h1
  have hv : single_value (.strs [v]) false = some v := by
    simp [single_value]
  have hmv : ∀ observed : List Nat,
      matchValue (.strs [v]) false (single_value (.strs [v]) false) observed =
        matchValue (.strs [v]) false none observed := by
    intro observed
    rw [hv]
    simp only [matchValue, List.contains]
    rw [Bool.eq_iff_iff]
    simp
  refine ⟨hmv, ?_⟩
  intro field lps
  have hstep : ∀ (acc : FileCounts) (lp : LineParse),
      stepLine field (.strs [v]) false (single_value (.strs [v]) false) acc lp =
        stepLine field (.strs [v]) false none acc lp := by
    intro acc lp
    cases lp with
    | parse_fail => rfl
    | record rec =>
      simp only [stepLine]
      cases hg : getField rec field with
      | none => rfl
      | some jv =>
        cases jv with
        | nonstr => rfl
        | str s =>
          dsimp only
          rw [hmv]
  rw [processLines, processLines]
  exact List.foldl_ext _ _ _ fun acc lp _ => hstep acc lp

/-- C4 witness: the singleton criterion value "a" against the field value
"A" (differing only in case). -/
theorem C4_fast_path_equiv_witness :
    matchValue (.strs [[97]]) false (single_value (.strs [[97]]) false) [65] =
      matchValue (.strs [[97]]) false none [65] :=
  (C4_fast_path_equiv [[97]] (by decide)).1 [65]

/-- C6: a line that fails to parse, parses but lacks the configured field,
or has a non-string value at that field is classified as an error: the
error counter is incremented by one, the line still counts as scanned, and
the surrounding lines are processed exactly as without it — the error is
never fatal to the file. -/
theorem C6_parse_errors_recoverable (field : List Nat) (v : FilterValues) (rx : Bool)
    (val : Option (List Nat)) (pre post : List LineParse) (lp : LineParse)
    (herr : lp = .parse_fail ∨
      (∃ r, lp = .record r ∧ getField r field = none) ∨
      (∃ r, lp = .record r ∧ getField r field = some .nonstr)) :
    processLines field v rx val (pre ++ lp :: post) =
      ⟨(processLines field v rx val pre).lines_processed + 1 +
         (processLines field v rx val post).lines_processed,
       (processLines field v rx val pre).error_lines + 1 +
         (processLines field v rx val post).error_lines,
       (processLines field v rx val pre).matched_records ++
         (processLines field v rx val post).matched_records⟩ := by
  have hone : processLines field v rx val [lp] = ⟨1, 1, []⟩ := by
    rcases herr with rfl | ⟨r, rfl, hg⟩ | ⟨r, rfl, hg⟩
    · simp [processLines, stepLine]
    · simp [processLines, stepLine, hg]
    · simp [processLines, stepLine, hg]
  rw [show lp :: post = [lp] ++ post from rfl, processLines_append,
    processLines_append, hone]
  simp only [List.nil_append, FileCounts.mk.injEq]
  refine ⟨by omega, by omega, trivial⟩

/-- C6 witness: a malformed line between two well-formed ones; the error is
counted, the line scanned, and the neighbours matched as usual. -/
theorem C6_parse_errors_recoverable_witness :
    processLines [102] (.strs [[97]]) false none
        ([.record [([102], .str [97])]] ++ .parse_fail ::
          [.record [([102], .str [97])]]) =
      ⟨(processLines [102] (.strs [[97]]) false none
          [.record [([102], .str [97])]]).lines_processed + 1 +
         (processLines [102] (.strs [[97]]) false none
           [.record [([102], .str [97])]]).lines_processed,
       (processLines [102] (.strs [[97]]) false none
          [.record [([102], .str [97])]]).error_lines + 1 +
         (processLines [102] (.strs [[97]]) false none
           [.record [([102], .str [97])]]).error_lines,
       (processLines [102] (.strs [[97]]) false none
          [.record [([102], .str [97])]]).matched_records ++
         (processLines [102] (.strs [[97]]) false none
           [.record [([102], .str [97])]]).matched_records⟩ :=
  C6_parse_errors_recoverable [102] (.strs [[97]]) false none
    [.record [([102], .str [97])]] [.record [([102], .str [97])]]
    .parse_fail (Or.inl rfl)

/-- C5: whenever a file fails — a decode error raised mid-scan, or a
sink-write error with matches in memory — the `ProcessingResult` returned
by `process_file_python` carries the lines-scanned and error-line counts
accumulated up to the failure (one per yielded line) and reports zero
matches; the accumulated matched records are discarded and no output file
is written. -/
theorem C5_failure_discards_matches (field : List Nat) (values : FilterValues)
    (rx : Bool) (chunkSize maxWindowSize : Nat) (hcs : 0 < chunkSize)
    (file_chunks : List (List Nat)) (parse : List Nat → LineParse)
    (file_path : List Nat) (write_ok : Bool)
    (hfail : (yield_lines chunkSize maxWindowSize hcs file_chunks).2.isSome ∨
      ((processLines field values rx (single_value values rx)
          ((yield_lines chunkSize maxWindowSize hcs file_chunks).1.map parse)
        ).matched_records ≠ [] ∧ write_ok = false)) :
    (process_file_python field values rx chunkSize maxWindowSize hcs file_chunks
        parse file_path write_ok).1.matched_count = 0 ∧
    (process_file_python field values rx chunkSize maxWindowSize hcs file_chunks
        parse file_path write_ok).2 = false ∧
    (process_file_python field values rx chunkSize maxWindowSize hcs file_chunks
        parse file_path write_ok).1.lines_processed =
      (yield_lines chunkSize maxWindowSize hcs file_chunks).1.length ∧
    (process_file_python field values rx chunkSize maxWindowSize hcs file_chunks
        parse file_path write_ok).1.error_lines =
      (processLines field values rx (single_value values rx)
        ((yield_lines chunkSize maxWindowSize hcs file_chunks).1.map parse)).error_lines := by
  have hlen := processLines_length field values rx (single_value values rx)
    ((yield_lines chunkSize maxWindowSize hcs file_chunks).1.map parse)
  rw [List.length_map] at hlen
  simp only [process_file_python]
  cases hld : (yield_lines chunkSize maxWindowSize hcs file_chunks).2 with
  | some e =>
    dsimp only
    exact ⟨rfl, rfl, hlen, rfl⟩
  | none =>
    rcases hfail with hdec | ⟨hmat, hwr⟩
    · rw [hld] at hdec
      cases hdec
    · dsimp only
      rw [if_pos hmat, if_neg (by rw [hwr]; exact Bool.false_ne_true)]
      exact ⟨rfl, rfl, hlen, rfl⟩

/-- C5 witness: a truncated stream (a lone multi-byte lead whose completion
never arrives within a 2-byte window) raises mid-scan; the file reports
zero matches, zero lines, and no output written. -/
theorem C5_failure_discards_matches_witness :
    (process_file_python [102] (.strs [[97]]) false 1 2 Nat.one_pos [[195]]
        (fun _ => .parse_fail) [112] true).1.matched_count = 0 ∧
    (process_file_python [102] (.strs [[97]]) false 1 2 Nat.one_pos [[195]]
        (fun _ => .parse_fail) [112] true).2 = false ∧
    (process_file_python [102] (.strs [[97]]) false 1 2 Nat.one_pos [[195]]
        (fun _ => .parse_fail) [112] true).1.lines_processed =
      (yield_lines 1 2 Nat.one_pos [[195]]).1.length ∧
    (process_file_python [102] (.strs [[97]]) false 1 2 Nat.one_pos [[195]]
        (fun _ => .parse_fail) [112] true).1.error_lines =
      (processLines [102] (.strs [[97]]) false
        (single_value (.strs [[97]]) false)
        ((yield_lines 1 2 Nat.one_pos [[195]]).1.map (fun _ => .parse_fail))).error_lines :=
  C5_failure_discards_matches [102] (.strs [[97]]) false 1 2 Nat.one_pos [[195]]
    (fun _ => .parse_fail) [112] true
    (Or.inl (by
      rw [yield_lines, yield_lines_from_eq_error Nat.one_pos
        (by
          rw [read_and_decode_eq_step Nat.one_pos (by decide) (by decide),
            read_and_decode_eq_step Nat.one_pos (by decide) (by decide),
            read_and_decode_eq_error Nat.one_pos (by decide) (by decide)])]
      rfl))

/-- C8 (modelled from the spec; no checkpoint code exists under `src/`):
`pending(allIds)` is exactly the set difference of the enumerated ids minus
the processed ids — membership-wise — and it preserves the enumeration
order (it is a sublist of the enumeration); concretely, with file A
(id `[65]`) already processed, the pending set over {A, B} is {B}. -/
theorem C8_pending_set_difference :
    (∀ (allIds processed : List (List Nat)) (x : List Nat),
        x ∈ pending allIds processed ↔ x ∈ allIds ∧ x ∉ processed) ∧
    (∀ allIds processed : List (List Nat), List.Sublist (pending allIds processed) allIds) ∧
    pending [[65], [66]] [[65]] = [[66]] := by
  refine ⟨?_, fun allIds processed => List.filter_sublist allIds, by decide⟩
  intro allIds processed x
  simp [pending, List.mem_filter, List.elem_iff]

/-- C10: `generate_output_path` deletes every occurrence of the configured
extension from the input base name, not only a trailing one: the scan of
`str.replace` removes an interior occurrence wherever no occurrence starts
earlier inside the prefix; consequently the two distinct base names
"a.zst.b.zst" and "a.b.zst" collide onto the same output path "o/a.b.csv". -/
theorem C10_extension_removed_everywhere :
    (∀ (pat x y : List Nat), pat ≠ [] →
      (∀ i, i < x.length → ¬ pat.isPrefixOf ((x ++ pat ++ y).drop i)) →
      replaceAll pat (x ++ pat ++ y) = x ++ replaceAll pat y) ∧
    generate_output_path [97, 46, 122, 115, 116, 46, 98, 46, 122, 115, 116] [111]
        true false [46, 122, 115, 116] =
      generate_output_path [97, 46, 98, 46, 122, 115, 116] [111]
        true false [46, 122, 115, 116] ∧
    [97, 46, 122, 115, 116, 46, 98, 46, 122, 115, 116] ≠
      [97, 46, 98, 46, 122, 115, 116] := by
  refine ⟨replaceAll_interior, ?_, by decide⟩
  simp only [generate_output_path, basenameOf, joinPath]
  have h1 : replaceAll [46, 122, 115, 116]
      ((splitSep 47 [97, 46, 122, 115, 116, 46, 98, 46, 122, 115, 116]).getLastD []) =
      [97, 46, 98] := by
    rw [show (splitSep 47 [97, 46, 122, 115, 116, 46, 98, 46, 122, 115, 116]).getLastD [] =
      [97, 46, 122, 115, 116, 46, 98, 46, 122, 115, 116] by decide]
    rw [replaceAll_cons_neg (by decide),
      replaceAll_cons_pos ⟨by decide, by decide⟩]
    rw [show ((46 : Nat) :: [122, 115, 116, 46, 98, 46, 122, 115, 116]).drop
        [46, 122, 115, 116].length = [46, 98, 46, 122, 115, 116] by decide]
    rw [replaceAll_cons_neg (by decide), replaceAll_cons_neg (by decide),
      replaceAll_cons_pos ⟨by decide, by decide⟩]
    rw [show ((46 : Nat) :: [122, 115, 116]).drop [46, 122, 115, 116].length =
      [] by decide]
    rw [replaceAll_nil]
  have h2 : replaceAll [46, 122, 115, 116]
      ((splitSep 47 [97, 46, 98, 46, 122, 115, 116]).getLastD []) = [97, 46, 98] := by
    rw [show (splitSep 47 [97, 46, 98, 46, 122, 115, 116]).getLastD [] =
      [97, 46, 98, 46, 122, 115, 116] by decide]
    rw [replaceAll_cons_neg (by decide), replaceAll_cons_neg (by decide),
      replaceAll_cons_neg (by decide), replaceAll_cons_pos ⟨by decide, by decide⟩]
    rw [show ((46 : Nat) :: [122, 115, 116]).drop [46, 122, 115, 116].length =
      [] by decide]
    rw [replaceAll_nil]
  rw [h1, h2]

/-- C10 witness: the general interior-removal part applied to the base name
"a" ++ ".zst" ++ ".b" with no earlier occurrence inside "a". -/
theorem C10_extension_removed_everywhere_witness :
    replaceAll [46, 122, 115, 116] ([97] ++ [46, 122, 115, 116] ++ [46, 98]) =
      [97] ++ replaceAll [46, 122, 115, 116] [46, 98] :=
  C10_extension_removed_everywhere.1 [46, 122, 115, 116] [97] [46, 98]
    (by decide) (by decide)
